import Mathlib

set_option maxRecDepth 8000

namespace Frost

/-- Scalar field of the group, in exponent form: a group point is represented by
its discrete logarithm with respect to the generator, so the generator is 1,
point addition is field addition, and scalar multiplication of a point is field
multiplication.  The elliptic-curve arithmetic is the trusted external
collaborator of the spec, and this is its standard shallow embedding. -/
abbrev F (q : ℕ) : Type := ZMod q

/-- Modelled from the spec: the external arithmetic library (absent from src)
inverts a nonzero scalar by Fermat exponentiation, and maps 0 to 0. -/
def finv (q : ℕ) (x : F q) : F q := x ^ (q - 2)

/-- Field division used by the Lagrange coefficient computation. -/
def fdiv (q : ℕ) (a b : F q) : F q := a * finv q b

/-- Horner evaluation of a polynomial given by its coefficient list, constant
term first.  This is how a DKG participant evaluates its secret polynomial. -/
def evalPoly (q : ℕ) : List (F q) → F q → F q
  | [], _ => 0
  | a :: rest, x => a + x * evalPoly q rest x

/-- The closed error taxonomy of the spec (section 7); the source reports these
conditions as free-form strings, which the spec maps to this tagged form. -/
inductive FrostError : Type where
  | proofVerificationFailed (who : ℕ)
  | shareCountMismatch (who expected got : ℕ)
  | shareVerificationFailed (who : ℕ)
  | groupKeyMismatch
  | duplicateSigner (who : ℕ)
  | insufficientSigners (got need : ℕ)
  | invalidPartialSignature (who : ℕ)
  | nonceExhausted (who : ℕ)
  | malformedKeyMaterial
  | signatureVerificationFailed
deriving DecidableEq

/-- Result of running a piece of the Rust code: normal return, error return via
Result, or a panic (index out of bounds, failed assert, unwrap on None). -/
inductive Outcome (α : Type) : Type where
  | ok : α → Outcome α
  | err : FrostError → Outcome α
  | panicked : Outcome α
deriving DecidableEq

/-- Key material as held in memory by the pipeline: the group key and the list
of private shares, each share being the pair (scalar bytes, participant index)
exactly as in the FrostKeys struct of types.rs.  A 32-byte encoding either
decodes to a scalar or point (some value) or is rejected by from_bytes (none);
this models the fixed-width encode/decode contract of the external library. -/
structure FrostKeysM (q : ℕ) : Type where
  group_key : Option (F q)
  private_shares : List (Option (F q) × ℕ)
deriving DecidableEq

/-! ## JSON serialization model for FrostKeys (types.rs, serde derive)

The byte-level view of key material: group_key is a 32-element byte array and
each private share entry is the tuple (32-byte scalar array, u32 index), in
that order, as declared in types.rs.  serde_json renders a Rust tuple as a JSON
array of its components in declaration order. -/

/-- JSON values produced and consumed by serde_json for the key file. -/
inductive Json : Type where
  | num : ℕ → Json
  | arr : List Json → Json
  | obj : List (String × Json) → Json

/-- A byte array serializes as a JSON array of numbers. -/
def bytesToJson (b : List ℕ) : Json := Json.arr (b.map Json.num)

/-- Serialization of one private-share entry ([u8; 32], u32): serde renders the
tuple as a two-element JSON array, scalar bytes first, index second, in the
declaration order of types.rs. -/
def entryToJson (e : List ℕ × ℕ) : Json :=
  Json.arr [bytesToJson e.1, Json.num e.2]

/-- Byte-level key material as written to ./results/frost_keys.json. -/
structure FrostKeysBytes : Type where
  group_key : List ℕ
  private_shares : List (List ℕ × ℕ)
deriving DecidableEq

/-- Serialization of the FrostKeys struct by serde_json (keygen.rs step 5):
an object with the two named fields in declaration order. -/
def frostKeysToJson (k : FrostKeysBytes) : Json :=
  Json.obj [("group_key", bytesToJson k.group_key),
            ("private_shares", Json.arr (k.private_shares.map entryToJson))]

/-- Deserialization of one byte: a u8 must be a number below 256. -/
def jsonToByte : Json → Option ℕ
  | Json.num b => if b < 256 then some b else none
  | _ => none

/-- Deserialization of a [u8; 32]: an array of exactly 32 valid bytes. -/
def jsonToBytes32 : Json → Option (List ℕ)
  | Json.arr l =>
      match l.mapM jsonToByte with
      | some bs => if bs.length = 32 then some bs else none
      | none => none
  | _ => none

/-- Deserialization of one private-share entry: a two-element array holding the
32 scalar bytes and then a u32 index. -/
def jsonToEntry : Json → Option (List ℕ × ℕ)
  | Json.arr [bj, Json.num idx] =>
      match jsonToBytes32 bj with
      | some bs => if idx < 2 ^ 32 then some (bs, idx) else none
      | none => none
  | _ => none

/-- Deserialization of the FrostKeys struct as read by sign.rs and verify.rs:
serde looks the two fields up by name. -/
def frostKeysFromJson : Json → Option FrostKeysBytes
  | Json.obj fields =>
      match fields.lookup "group_key", fields.lookup "private_shares" with
      | some gkj, some (Json.arr entries) =>
          match jsonToBytes32 gkj, entries.mapM jsonToEntry with
          | some gk, some es => some ⟨gk, es⟩
          | _, _ => none
      | _, _ => none
  | _ => none

/-- Well-formed byte-level key material: the group key is 32 bytes, every share
entry is 32 bytes with a u32 index, and all bytes fit in a u8. -/
def FrostKeysBytes.wf (k : FrostKeysBytes) : Prop :=
  k.group_key.length = 32 ∧ (∀ b ∈ k.group_key, b < 256) ∧
    ∀ e ∈ k.private_shares,
      e.1.length = 32 ∧ (∀ b ∈ e.1, b < 256) ∧ e.2 < 2 ^ 32

instance (k : FrostKeysBytes) : Decidable k.wf := by
  unfold FrostKeysBytes.wf; infer_instance

/-- The list of serialized private-share entries inside a serialized key file;
empty when the JSON does not have the expected shape. -/
def sharesOfJson : Json → List Json
  | Json.obj fields =>
      match fields.lookup "private_shares" with
      | some (Json.arr entries) => entries
      | _ => []
  | _ => []

/-- The entry shape asserted by the claim: participant index first and the
32-byte scalar second. -/
def entryToJsonIndexFirst (e : List ℕ × ℕ) : Json :=
  Json.arr [Json.num e.2, bytesToJson e.1]

/-! ## CLI dispatch model (main.rs)

The match on the parsed subcommand in main.  Each arm is modelled by the list
of effects it performs; the Verify arm only prints two lines. -/

/-- The parsed subcommands of the CLI. -/
inductive Commands : Type where
  | generate (t n : ℕ)
  | sign (message : String) (t n : ℕ) (key_file : String)
  | verify (message : String) (signature_file : String)
deriving DecidableEq

/-- Observable effects main can perform in an arm of the match: printing a
line, delegating to a key-generation, signing or verification routine, or
opening a file.  Constructors exist for the verification effects precisely so
the model can express that the Verify arm performs none of them. -/
inductive Effect : Type where
  | printLine (s : String)
  | callGenerateKeys (t n : ℕ)
  | callSignMessage (message : String) (t n : ℕ) (key_file : String)
  | callValidateSignature (message key_file signature_file : String)
  | openFile (path : String)
deriving DecidableEq

/-- The match over the subcommand in main (main.rs lines 59-80), translated
arm by arm; main then returns Ok(()). -/
def mainDispatch : Commands → List Effect
  | Commands.generate t n =>
      [Effect.printLine ("Generating keys..."), Effect.callGenerateKeys t n]
  | Commands.sign m t n kf =>
      [Effect.printLine ("Signing message: " ++ m),
       Effect.callSignMessage m t n kf]
  | Commands.verify m sf =>
      [Effect.printLine ("Verifying signature for message: " ++ m),
       Effect.printLine ("Using signature file: " ++ sf)]

/-- Whether an effect reads a file, loads a key or verifies a signature. -/
def Effect.isVerificationWork : Effect → Bool
  | Effect.callValidateSignature _ _ _ => true
  | Effect.openFile _ => true
  | _ => false

/-! ## DKG model (keygen.rs, library calls modelled from the spec) -/

/-- A DKG participant as published in round one: its index, the public
commitments to its polynomial coefficients (in exponent form the commitment to
a coefficient is the coefficient itself), and its Schnorr proof of knowledge of
the secret constant term (nonce commitment pokR and response pokS). -/
structure ParticipantM (q : ℕ) : Type where
  index : ℕ
  commitments : List (F q)
  pokR : F q
  pokS : F q
deriving DecidableEq

/-- Modelled from the spec: Participant::new of the external library draws a
random degree t-1 polynomial (the coefficients and the proof nonce are inputs
standing for the random draws), commits to every coefficient, and produces a
proof of knowledge bound to the participant index and constant-term
commitment. -/
def participantNew (q : ℕ) (Hp : ℕ → F q → F q → F q) (idx : ℕ)
    (coeffs : List (F q)) (k : F q) : ParticipantM q :=
  { index := idx
    commitments := coeffs
    pokR := k
    pokS := k + Hp idx coeffs.headI k * coeffs.headI }

/-- Modelled from the spec: verification of a proof of secret key against the
claimed participant index and constant-term commitment pk. -/
def pokVerify (q : ℕ) (Hp : ℕ → F q → F q → F q) (p : ParticipantM q) (pk : F q) : Bool :=
  p.pokS == p.pokR + Hp p.index pk p.pokR * pk

/-- Step 2 of generate_keys (keygen.rs lines 29-39): every participant has its
proof of secret key verified against public_key().unwrap(); an unwrap on an
empty commitment list is a panic and the first verification failure is an
error naming the offender. -/
def pokCheckAll (q : ℕ) (Hp : ℕ → F q → F q → F q) : List (ParticipantM q) → Outcome Unit
  | [] => Outcome.ok ()
  | p :: rest =>
      match p.commitments.head? with
      | none => Outcome.panicked
      | some pk =>
          if pokVerify q Hp p pk then pokCheckAll q Hp rest
          else Outcome.err (FrostError.proofVerificationFailed p.index)

/-- A secret share in transit: the index of the receiver it is addressed to
and the polynomial evaluation at that index. -/
structure SecretShareM (q : ℕ) : Type where
  index : ℕ
  value : F q
deriving DecidableEq

/-- Modelled from the spec: their_secret_shares of the round-one state
evaluates the polynomial at every peer index, producing one share per peer in
the order of the other_participants list the state was built from. -/
def theirSecretShares (q : ℕ) (coeffs : List (F q)) (others : List (ParticipantM q)) :
    List (SecretShareM q) :=
  others.map (fun p => ⟨p.index, evalPoly q coeffs (p.index : F q)⟩)

/-- Step 1 of generate_keys: the participant list, one per index 1..n. -/
def dkgParticipants (q : ℕ) (Hp : ℕ → F q → F q → F q) (n : ℕ)
    (coeffs : ℕ → List (F q)) (pokNonce : ℕ → F q) : List (ParticipantM q) :=
  (List.range n).map (fun i => participantNew q Hp (i + 1) (coeffs i) (pokNonce i))

/-- Step 3 of generate_keys: participant i clones the participant list,
removes itself, and its round-one state computes the shares for the others. -/
def allSecretSharesOf (q : ℕ) (parts : List (ParticipantM q)) (coeffs : ℕ → List (F q)) :
    List (List (SecretShareM q)) :=
  (List.range parts.length).map (fun i => theirSecretShares q (coeffs i) (parts.eraseIdx i))

/-- Step 4 of generate_keys (keygen.rs lines 80-88): participant i collects
one share from every other list j, at position i when i < j and i - 1
otherwise, by enumerate, filter and filter_map over the collected lists. -/
def mySecretShares (q : ℕ) (allShares : List (List (SecretShareM q))) (i : ℕ) :
    List (SecretShareM q) :=
  (allShares.enum.filter (fun jp => jp.1 ≠ i)).filterMap
    (fun jp => jp.2.get? (if i < jp.1 then i else i - 1))

/-- Modelled from the spec: round two checks every received share against the
published commitments of its sender, pairing the shares with the senders in
the order of the other_participants list. -/
def vssCheck (q : ℕ) (sendersCommitments : List (List (F q)))
    (received : List (SecretShareM q)) : Bool :=
  (sendersCommitments.zip received).all
    (fun pc => pc.2.value == evalPoly q pc.1 (pc.2.index : F q))

/-- Step 4 of generate_keys, the per-participant loop: the share-count guard
(keygen.rs lines 91-99) and to_round_two with its share verification. -/
def roundTwoCheckFrom (q : ℕ) (parts : List (ParticipantM q))
    (allShares : List (List (SecretShareM q))) (n : ℕ) : List ℕ → Outcome Unit
  | [] => Outcome.ok ()
  | i :: rest =>
      let ms := mySecretShares q allShares i
      if ms.length ≠ n - 1 then
        Outcome.err (FrostError.shareCountMismatch (i + 1) (n - 1) ms.length)
      else if vssCheck q ((parts.eraseIdx i).map ParticipantM.commitments) ms then
        roundTwoCheckFrom q parts allShares n rest
      else Outcome.err (FrostError.shareVerificationFailed (i + 1))

/-- Modelled from the spec: finish sums the own share and all verified
received shares into the long-term secret. -/
def finishSecret (q : ℕ) (coeffs : List (F q)) (selfIdx : ℕ)
    (received : List (SecretShareM q)) : F q :=
  evalPoly q coeffs (selfIdx : F q) + (received.map SecretShareM.value).sum

/-- Modelled from the spec: finish computes the group key as the sum of every
participant constant-term commitment, taken from the broadcast round-one
packages. -/
def finishGroupKey (q : ℕ) (parts : List (ParticipantM q)) : F q :=
  (parts.map (fun p => p.commitments.headI)).sum

/-- The chain of assert_eq checks of step 5 (keygen.rs line 128): each group
key is compared with the previous one; a failure is a panic. -/
def assertChain (q : ℕ) : List (F q) → Bool
  | [] => true
  | [_] => true
  | a :: b :: rest => decide (b = a) && assertChain q (b :: rest)

/-- Sum of all constant terms of the participant polynomials: the group secret
that the group key commits to. -/
def groupSecret (q : ℕ) (coeffs : ℕ → List (F q)) (n : ℕ) : F q :=
  ((List.range n).map (fun j => (coeffs j).headI)).sum

/-- Sum of all participant polynomials evaluated at index m: the long-term
key share of participant m. -/
def totalShare (q : ℕ) (coeffs : ℕ → List (F q)) (n m : ℕ) : F q :=
  ((List.range n).map (fun j => evalPoly q (coeffs j) (m : F q))).sum

/-- generate_keys of keygen.rs: participants and coefficients, proof
verification, DKG round one, share redistribution with the count guard, round
two share verification, finish with the group-key assert chain, and the
resulting key material (the random draws are inputs).  File output is
modelled by the returned value. -/
def generate_keys (q : ℕ) (Hp : ℕ → F q → F q → F q) (t n : ℕ)
    (coeffs : ℕ → List (F q)) (pokNonce : ℕ → F q) : Outcome (FrostKeysM q) :=
  let parts := dkgParticipants q Hp n coeffs pokNonce
  match pokCheckAll q Hp parts with
  | Outcome.err e => Outcome.err e
  | Outcome.panicked => Outcome.panicked
  | Outcome.ok _ =>
      let allShares := allSecretSharesOf q parts coeffs
      match roundTwoCheckFrom q parts allShares n (List.range n) with
      | Outcome.err e => Outcome.err e
      | Outcome.panicked => Outcome.panicked
      | Outcome.ok _ =>
          if parts.all (fun p => p.commitments.head?.isSome) then
            let secrets := (List.range n).map
              (fun i => finishSecret q (coeffs i) (i + 1) (mySecretShares q allShares i))
            let gks := (List.range n).map (fun _ => finishGroupKey q parts)
            if assertChain q gks then
              match gks.head? with
              | some gk0 =>
                  Outcome.ok ⟨some gk0, secrets.enum.map (fun p => (some p.2, p.1 + 1))⟩
              | none => Outcome.panicked
            else Outcome.panicked
          else Outcome.panicked

/-! ## Signing model (sign.rs, library calls modelled from the spec) -/

/-- The signing context string shared by sign.rs and verify.rs. -/
def signingContext : List ℕ := ("THRESHOLD SIGNING CONTEXT").data.map Char.toNat

/-- The hash functions consumed by the protocol, external collaborators of the
spec: the domain-separated message hash, the per-signer binding factor hash
over the message hash, the ordered commitment list and the signer index, and
the group challenge hash over R, the group key and the message hash. -/
structure HashEnv (q : ℕ) : Type where
  msgHash : List ℕ → List ℕ → F q
  bindingHash : F q → List (ℕ × (F q × F q)) → ℕ → F q
  challenge : F q → F q → F q → F q

/-- One registered signer inside the aggregator: its index, its published
public commitment pair and its public key share. -/
structure SignerEntry (q : ℕ) : Type where
  idx : ℕ
  com : F q × F q
  pk : F q
deriving DecidableEq

/-- Modelled from the spec: generate_commitment_share_lists produces count
independent nonce-commitment pairs from the secure random source (the draws
are an input stream); each pair is two secret scalars together with the two
public points committing to them, identical in exponent form. -/
def generateCommitmentShareLists (q : ℕ) (draws : ℕ → F q × F q) (count : ℕ) :
    List (F q × F q) × List (F q × F q) :=
  ((List.range count).map draws, (List.range count).map draws)

/-- The nonce-commitment pair one signing session dispenses for one signer:
the pair at index 0 of the freshly generated single-use commitment share list,
as consumed exactly once by sign.rs (steps 6, 9 and 11). -/
def dispensedPair (q : ℕ) (draws : ℕ → F q × F q) : (F q × F q) × (F q × F q) :=
  ((generateCommitmentShareLists q draws 1).2.headI,
   (generateCommitmentShareLists q draws 1).1.headI)

/-- The ordered public commitment list of a signer set, as fed to every
binding factor hash. -/
def commitList (q : ℕ) (signers : List (SignerEntry q)) : List (ℕ × (F q × F q)) :=
  signers.map (fun sg => (sg.idx, sg.com))

/-- Modelled from the spec: the binding factor of one signer in one session. -/
def bindingFactor (q : ℕ) (env : HashEnv q) (h : F q) (signers : List (SignerEntry q))
    (i : ℕ) : F q :=
  env.bindingHash h (commitList q signers) i

/-- Modelled from the spec: the group commitment R as the sum of D + rho * E
over the frozen signer set. -/
def groupCommitment (q : ℕ) (env : HashEnv q) (h : F q) (signers : List (SignerEntry q)) : F q :=
  (signers.map (fun sg => sg.com.1 + bindingFactor q env h signers sg.idx * sg.com.2)).sum

/-- Modelled from the spec: the Lagrange coefficient of index i over the
signer set index list, computed by the library both when a signer signs and
when the aggregator validates the contribution. -/
def lagrangeCoeff (q : ℕ) (indices : List ℕ) (i : ℕ) : F q :=
  ((indices.filter (fun j => j ≠ i)).map
    (fun j : ℕ => fdiv q (j : F q) ((j : F q) - (i : F q)))).prod

/-- Modelled from the spec: a signer computes its scalar contribution
z = d + rho * e + c * lambda * s from its nonce pair and long-term share. -/
def signerShare (q : ℕ) (env : HashEnv q) (h gk s : F q) (myIdx : ℕ) (d e : F q)
    (signers : List (SignerEntry q)) : F q :=
  let rho := bindingFactor q env h signers myIdx
  let R := groupCommitment q env h signers
  let c := env.challenge R gk h
  d + rho * e + c * lagrangeCoeff q (signers.map SignerEntry.idx) myIdx * s

/-- Modelled from the spec: include_signer registers a candidate signer; a
repeated index is DuplicateSigner, which sign.rs discards, leaving the
aggregator state unchanged. -/
def includeSigner (q : ℕ) (st : List (SignerEntry q)) (sg : SignerEntry q) :
    List (SignerEntry q) :=
  if st.any (fun x => x.idx = sg.idx) then st else st ++ [sg]

/-- Modelled from the spec: get_signers returns the frozen signer set in
ascending index order. -/
def sortedSigners (q : ℕ) (st : List (SignerEntry q)) : List (SignerEntry q) :=
  List.insertionSort (fun a b => a.idx ≤ b.idx) st

/-- Modelled from the spec: finalization requires at least t registered
signers; fewer is InsufficientSigners with the counts. -/
def finalizeSigners (q : ℕ) (t : ℕ) (signers : List (SignerEntry q)) : Outcome Unit :=
  if signers.length < t then
    Outcome.err (FrostError.insufficientSigners signers.length t)
  else Outcome.ok ()

/-- Modelled from the spec: aggregate validates every partial signature
against its signer public data, naming the first offender, sums the
contributions, and self-verifies the combined pair against the group key
before returning it. -/
def aggregateSigs (q : ℕ) (env : HashEnv q) (h gk : F q)
    (signers : List (SignerEntry q)) (zs : List (ℕ × F q)) : Outcome (F q × F q) :=
  let R := groupCommitment q env h signers
  let c := env.challenge R gk h
  match signers.findSome? (fun sg =>
      match zs.lookup sg.idx with
      | none => some sg.idx
      | some z =>
          if z = sg.com.1 + bindingFactor q env h signers sg.idx * sg.com.2 +
              c * lagrangeCoeff q (signers.map SignerEntry.idx) sg.idx * sg.pk
          then none else some sg.idx) with
  | some bad => Outcome.err (FrostError.invalidPartialSignature bad)
  | none =>
      let z := (signers.filterMap (fun sg => zs.lookup sg.idx)).sum
      if z = R + c * gk then Outcome.ok (R, z)
      else Outcome.err FrostError.signatureVerificationFailed

/-- Step 4 of sign_message: every (bytes, index) entry is reconstructed into a
secret key share; from_bytes rejects undecodable bytes, stopping at the first
bad entry. -/
def decodeShares (q : ℕ) (shares : List (Option (F q) × ℕ)) : Option (List (ℕ × F q)) :=
  shares.mapM (fun p => p.1.map (fun s => (p.2, s)))

/-- Steps 6 and 9 of sign_message: the aggregator registration of the signer
at one position of the chosen subset: its index, the public commitment pair at
index 0 of its fresh single-use list, and its public key share. -/
def signerEntryAt (q : ℕ) (nonces : ℕ → ℕ → F q × F q) (p : ℕ) (key : ℕ × F q) :
    SignerEntry q :=
  ⟨key.1, (generateCommitmentShareLists q (nonces p) 1).1.headI, key.2⟩

/-- The signer set a sign_message session freezes: the first t decoded shares
are registered with the aggregator and get_signers sorts the result. -/
def sessionSigners (q : ℕ) (nonces : ℕ → ℕ → F q × F q) (secretKeys : List (ℕ × F q))
    (t : ℕ) : List (SignerEntry q) :=
  sortedSigners q
    (((secretKeys.take t).enum.map (fun pe => signerEntryAt q nonces pe.1 pe.2)).foldl
      (includeSigner q) [])

/-- Step 11 of sign_message: the full secret key list, zipped against the t
secret commitment share lists, contributes the partial signatures; the zip
silently truncates to the first t keys. -/
def sessionPartials (q : ℕ) (env : HashEnv q) (h gk : F q) (nonces : ℕ → ℕ → F q × F q)
    (secretKeys : List (ℕ × F q)) (t : ℕ) (signers : List (SignerEntry q)) :
    List (ℕ × F q) :=
  (secretKeys.zip ((secretKeys.take t).enum.map
      (fun pe => (generateCommitmentShareLists q (nonces pe.1) 1).2.headI))).map
    (fun p => (p.1.1, signerShare q env h gk p.1.2 p.1.1 p.2.1 p.2.2 signers))

/-- Closed form of the signer set a session freezes for a key file holding
shares kv(1), ..., kv(n) in index order: the signers are 1..t, each with its
dispensed nonce commitment pair and public key share. -/
def honestSigners (q : ℕ) (nonces : ℕ → ℕ → F q × F q) (kv : ℕ → F q) (t : ℕ) :
    List (SignerEntry q) :=
  (List.range t).map (fun p => ⟨p + 1, nonces p 0, kv (p + 1)⟩)

/-- Closed form of the partial signatures of that session. -/
def honestPartials (q : ℕ) (env : HashEnv q) (h gk : F q) (kv : ℕ → F q)
    (nonces : ℕ → ℕ → F q × F q) (t : ℕ) : List (ℕ × F q) :=
  (List.range t).map (fun p => (p + 1,
    signerShare q env h gk (kv (p + 1)) (p + 1) (nonces p 0).1 (nonces p 0).2
      (honestSigners q nonces kv t)))

/-- sign_message of sign.rs, with file I/O modelled by values: the key file
content is an input and the returned pair is what is written to the signature
file (the 64-byte serialization round-trips exactly).  The unchecked slice
secret_keys[0..t] of step 5 is a panic when t exceeds the share count. -/
def sign_message (q : ℕ) (env : HashEnv q) (message : List ℕ) (t n : ℕ)
    (keys : FrostKeysM q) (nonces : ℕ → ℕ → F q × F q) : Outcome (F q × F q) :=
  match keys.group_key with
  | none => Outcome.err FrostError.malformedKeyMaterial
  | some gk =>
      match decodeShares q keys.private_shares with
      | none => Outcome.err FrostError.malformedKeyMaterial
      | some secretKeys =>
          if t ≤ secretKeys.length then
            let h := env.msgHash signingContext message
            let signers := sessionSigners q nonces secretKeys t
            let zs := sessionPartials q env h gk nonces secretKeys t signers
            match finalizeSigners q t signers with
            | Outcome.err e => Outcome.err e
            | Outcome.panicked => Outcome.panicked
            | Outcome.ok _ => aggregateSigs q env h gk signers zs
          else Outcome.panicked

/-- validate_signature of verify.rs with file I/O modelled by values: the
signature file holds the 64-byte pair, the key file the key material; verify
recomputes the challenge with the identical context and accepts iff
z * G equals R + c * GroupKey. -/
def validate_signature (q : ℕ) (env : HashEnv q) (message : List ℕ)
    (keys : FrostKeysM q) (sig : F q × F q) : Outcome Unit :=
  match keys.group_key with
  | none => Outcome.err FrostError.malformedKeyMaterial
  | some gk =>
      let h := env.msgHash signingContext message
      let c := env.challenge sig.1 gk h
      if sig.2 = sig.1 + c * gk then Outcome.ok ()
      else Outcome.err FrostError.signatureVerificationFailed

/-- The end-to-end scenario: sign the message, write the signature file, then
validate the same file against the same key file and message. -/
def signThenValidate (q : ℕ) (env : HashEnv q) (message : List ℕ) (t n : ℕ)
    (keys : FrostKeysM q) (nonces : ℕ → ℕ → F q × F q) : Outcome Unit :=
  match sign_message q env message t n keys nonces with
  | Outcome.ok sig => validate_signature q env message keys sig
  | Outcome.err e => Outcome.err e
  | Outcome.panicked => Outcome.panicked

/-- A concrete hash environment over F 5, used to evaluate the pipeline on
explicit inputs: the message hash sums the message bytes, the binding hash is
constant and the challenge returns the message hash. -/
def envC : HashEnv 5 :=
  { msgHash := fun _ m => ((m.sum : ℕ) : F 5)
    bindingHash := fun _ _ _ => 0
    challenge := fun _ _ h => h }

/-- The polynomial a coefficient list denotes, bridging the Horner evaluation
of the model to the Polynomial type of the interpolation argument. -/
noncomputable def listToPoly (q : ℕ) : List (F q) → Polynomial (F q)
  | [] => 0
  | a :: rest => Polynomial.C a + Polynomial.X * listToPoly q rest

/-! ## General list lemmas used by the development -/

theorem get?_eraseIdx_general {α : Type} (l : List α) (j p : ℕ) :
    (l.eraseIdx j).get? p = if p < j then l.get? p else l.get? (p + 1) := by
  induction l generalizing j p with
  | nil => cases j <;> simp [List.eraseIdx]
  | cons a l ih =>
      cases j with
      | zero => simp [List.eraseIdx]
      | succ j =>
          cases p with
          | zero => simp [List.eraseIdx]
          | succ p =>
              have h1 : ((a :: l).eraseIdx (j + 1)).get? (p + 1) = (l.eraseIdx j).get? p := rfl
              rw [h1, ih]
              by_cases hpj : p < j
              · rw [if_pos hpj, if_pos (by omega)]
                rfl
              · rw [if_neg hpj, if_neg (by omega)]
                rfl

theorem eraseIdx_map_general {α β : Type} (f : α → β) (l : List α) (j : ℕ) :
    (l.map f).eraseIdx j = (l.eraseIdx j).map f := by
  induction l generalizing j with
  | nil => simp [List.eraseIdx]
  | cons a l ih =>
      cases j with
      | zero => simp [List.eraseIdx]
      | succ j => simp [List.eraseIdx, ih]

theorem enumFrom_map_range' {α : Type} (g : ℕ → α) :
    ∀ (n s : ℕ), List.enumFrom s ((List.range' s n).map g) =
      (List.range' s n).map (fun j => (j, g j))
  | 0, _ => rfl
  | n + 1, s => by
      show (s, g s) :: List.enumFrom (s + 1) ((List.range' (s + 1) n).map g) = _
      rw [enumFrom_map_range' g n (s + 1)]
      rfl

theorem enum_map_range {α : Type} (g : ℕ → α) (n : ℕ) :
    ((List.range n).map g).enum = (List.range n).map (fun j => (j, g j)) := by
  rw [List.range_eq_range', List.enum, enumFrom_map_range']

theorem eraseIdx_range' : ∀ (n s i : ℕ), i < n →
    (List.range' s n).eraseIdx i = (List.range' s n).filter (fun j => j ≠ s + i)
  | 0, _, i, hi => absurd hi (Nat.not_lt_zero i)
  | n + 1, s, 0, _ => by
      show List.range' (s + 1) n = List.filter _ (s :: List.range' (s + 1) n)
      rw [List.filter_cons]
      simp only [Nat.add_zero, decide_eq_true_eq]
      rw [if_neg (by simp)]
      symm
      rw [List.filter_eq_self]
      intro a ha
      have := List.mem_range'_1.mp ha
      simp only [decide_eq_true_eq]
      omega
  | n + 1, s, i + 1, hi => by
      show s :: (List.range' (s + 1) n).eraseIdx i = List.filter _ (s :: List.range' (s + 1) n)
      rw [List.filter_cons]
      rw [eraseIdx_range' n (s + 1) i (Nat.lt_of_succ_lt_succ hi)]
      simp only [decide_eq_true_eq]
      rw [if_pos (by omega)]
      congr 1
      apply List.filter_congr
      intro a _
      have harith : s + 1 + i = s + (i + 1) := by omega
      rw [harith]

theorem eraseIdx_range (n i : ℕ) (hi : i < n) :
    (List.range n).eraseIdx i = (List.range n).filter (fun j => j ≠ i) := by
  rw [List.range_eq_range', eraseIdx_range' n 0 i hi]
  simp

theorem filterMap_eq_map_of_some {α β : Type} (f : α → Option β) (g : α → β) :
    ∀ (l : List α), (∀ a ∈ l, f a = some (g a)) → l.filterMap f = l.map g
  | [], _ => rfl
  | a :: l, h => by
      rw [List.filterMap_cons, h a (List.mem_cons_self a l),
        filterMap_eq_map_of_some f g l (fun b hb => h b (List.mem_cons_of_mem a hb)),
        List.map_cons]

theorem length_filter_ne_range (n i : ℕ) (hi : i < n) :
    ((List.range n).filter (fun j => j ≠ i)).length = n - 1 := by
  rw [← eraseIdx_range n i hi, List.length_eraseIdx]
  simp [hi]

theorem sum_filter_ne_add {M : Type} [AddCommMonoid M] (f : ℕ → M) :
    ∀ (n i : ℕ), i < n →
      f i + (((List.range n).filter (fun j => j ≠ i)).map f).sum =
        ((List.range n).map f).sum := by
  intro n
  induction n with
  | zero => intro i hi; exact absurd hi (Nat.not_lt_zero i)
  | succ n ih =>
      intro i hi
      rw [List.range_succ, List.filter_append, List.map_append, List.sum_append,
        List.map_append, List.sum_append]
      by_cases hin : i = n
      · subst hin
        have h1 : (List.range i).filter (fun j => j ≠ i) = List.range i := by
          rw [List.filter_eq_self]
          intro a ha
          simp only [decide_eq_true_eq]
          exact Nat.ne_of_lt (List.mem_range.mp ha)
        have h2 : [i].filter (fun j => j ≠ i) = [] := by simp
        rw [h1, h2]
        simp [add_comm]
      · have hlt : i < n := by omega
        have hne : n ≠ i := by omega
        have h2 : [n].filter (fun j => j ≠ i) = [n] := by simp [hne]
        rw [h2, ← add_assoc, ih i hlt]

theorem mapM_map_some {α β : Type} (f : β → Option α) (g : α → β) :
    ∀ (l : List α), (∀ a ∈ l, f (g a) = some a) → (l.map g).mapM f = some l
  | [], _ => rfl
  | a :: l, h => by
      rw [List.map_cons, List.mapM_cons, h a (List.mem_cons_self a l),
        mapM_map_some f g l (fun b hb => h b (List.mem_cons_of_mem a hb))]
      rfl

theorem list_map_range_sum {M : Type} [AddCommMonoid M] (f : ℕ → M) (n : ℕ) :
    ((List.range n).map f).sum = ∑ j ∈ Finset.range n, f j := by
  induction n with
  | zero => simp
  | succ n ih => rw [List.range_succ, List.map_append, List.sum_append, Finset.sum_range_succ, ih]; simp

/-! ## Claim C4: the Verify subcommand of main -/

/-- C4: the match arm for the verify subcommand in main.rs, for every message
and signature_file argument, produces exactly two print effects (the message
line and the file-name line) and nothing else: it never opens the signature
file, never loads a group key, and never performs signature verification, and
main then returns Ok. -/
theorem main_verify_only_prints (m sf : String) :
    mainDispatch (Commands.verify m sf) =
      [Effect.printLine ("Verifying signature for message: " ++ m),
       Effect.printLine ("Using signature file: " ++ sf)] ∧
      (mainDispatch (Commands.verify m sf)).all (fun e => ! e.isVerificationWork) = true :=
  ⟨rfl, rfl⟩

/-! ## Claim C7: nonce-commitment pairs are never dispensed twice -/

/-- C7: each sign_message call draws, for each signer, a fresh single-use
commitment share list from the random source and consumes the pair at index 0
exactly once; two signing sessions whose random draws differ (the guarantee of
the secure random source, idealized as an input stream) never dispense the
same nonce-commitment pair for a signer. -/
theorem nonce_pairs_distinct (q : ℕ) (d1 d2 : ℕ → F q × F q) (h : d1 0 ≠ d2 0) :
    dispensedPair q d1 ≠ dispensedPair q d2 := by
  have h1 : dispensedPair q d1 = (d1 0, d1 0) := rfl
  have h2 : dispensedPair q d2 = (d2 0, d2 0) := rfl
  intro heq
  rw [h1, h2] at heq
  exact h (congrArg Prod.fst heq)

/-- Witness for C7 at concrete draws over F 5. -/
theorem nonce_pairs_distinct_witness :
    ((fun _ : ℕ => ((0 : F 5), (0 : F 5))) 0 ≠ (fun _ : ℕ => ((1 : F 5), (0 : F 5))) 0) ∧
      dispensedPair 5 (fun _ => ((0 : F 5), (0 : F 5))) ≠
        dispensedPair 5 (fun _ => ((1 : F 5), (0 : F 5))) :=
  ⟨by decide, nonce_pairs_distinct 5 _ _ (by decide)⟩

/-! ## Claim C8: layout of a serialized private-share entry -/

/-- C8 counterexample: the serialized private-share entry of the concrete
share (32 zero bytes, index 7) is not the index-first array the claim
describes; types.rs declares the tuple as ([u8; 32], u32), scalar bytes
first. -/
theorem entry_serialization_not_index_first :
    entryToJson (List.replicate 32 0, 7) ≠ entryToJsonIndexFirst (List.replicate 32 0, 7) := by
  simp [entryToJson, entryToJsonIndexFirst, bytesToJson]

/-- C8 amended: key material is serialized with the group key as fixed-width
point bytes and private_shares as a list of pairs, but each serialized entry
carries the 32-byte scalar first and the participant index second: entry i of
the serialized list is the two-element array [scalar bytes, index] of share
entry i. -/
theorem entry_serialization_bytes_first (k : FrostKeysBytes) (i : ℕ) :
    (sharesOfJson (frostKeysToJson k)).get? i =
      (k.private_shares.get? i).map
        (fun e => Json.arr [Json.arr (e.1.map Json.num), Json.num e.2]) := by
  have hs : sharesOfJson (frostKeysToJson k) = k.private_shares.map entryToJson := rfl
  rw [hs, List.get?_map]
  cases k.private_shares.get? i <;> rfl

/-! ## Claim C9: key material round-trips through serde_json -/

/-- Decoding the serialization of a well-formed byte array gives it back. -/
theorem jsonToBytes32_bytesToJson (bs : List ℕ) (hlen : bs.length = 32)
    (hb : ∀ b ∈ bs, b < 256) : jsonToBytes32 (bytesToJson bs) = some bs := by
  have hmm : (bs.map Json.num).mapM jsonToByte = some bs := by
    apply mapM_map_some
    intro b hbmem
    simp [jsonToByte, hb b hbmem]
  show (match (bs.map Json.num).mapM jsonToByte with
    | some bs2 => if bs2.length = 32 then some bs2 else none
    | none => none) = some bs
  rw [hmm]
  simp [hlen]

/-- Decoding the serialization of a well-formed share entry gives it back. -/
theorem jsonToEntry_entryToJson (e : List ℕ × ℕ) (hlen : e.1.length = 32)
    (hb : ∀ b ∈ e.1, b < 256) (hidx : e.2 < 2 ^ 32) :
    jsonToEntry (entryToJson e) = some e := by
  show (match jsonToBytes32 (bytesToJson e.1) with
    | some bs => if e.2 < 2 ^ 32 then some (bs, e.2) else none
    | none => none) = some e
  rw [jsonToBytes32_bytesToJson e.1 hlen hb]
  simp only [if_pos hidx]

/-- C9: well-formed key material round-trips byte-identically: serializing a
FrostKeys value as generate_keys writes it and deserializing it as
sign_message and validate_signature read it yields the identical group key
bytes and the identical private-share list. -/
theorem frost_keys_round_trip (k : FrostKeysBytes) (h : k.wf) :
    frostKeysFromJson (frostKeysToJson k) = some k := by
  obtain ⟨hgl, hgb, hsh⟩ := h
  have hL : frostKeysFromJson (frostKeysToJson k) =
      match jsonToBytes32 (bytesToJson k.group_key),
          (k.private_shares.map entryToJson).mapM jsonToEntry with
      | some gk, some es => some ⟨gk, es⟩
      | _, _ => none := rfl
  rw [hL, jsonToBytes32_bytesToJson k.group_key hgl hgb,
    mapM_map_some jsonToEntry entryToJson k.private_shares
      (fun e he => jsonToEntry_entryToJson e (hsh e he).1 (hsh e he).2.1 (hsh e he).2.2)]

/-- Witness for C9 at a concrete well-formed key file. -/
theorem frost_keys_round_trip_witness :
    (FrostKeysBytes.mk (List.replicate 32 0) [(List.replicate 32 0, 1)]).wf ∧
      frostKeysFromJson (frostKeysToJson ⟨List.replicate 32 0, [(List.replicate 32 0, 1)]⟩) =
        some ⟨List.replicate 32 0, [(List.replicate 32 0, 1)]⟩ :=
  ⟨by decide, frost_keys_round_trip _ (by decide)⟩

/-! ## Claims C3 and C2: share redistribution and DKG output -/

/-- Closed form of the share-redistribution step of keygen.rs: participant i
(0-based) collects, from every other participant j in ascending order, exactly
the share that j evaluated at the 1-based index i + 1. -/
theorem mySecretShares_closed (q : ℕ) (Hp : ℕ → F q → F q → F q) (n : ℕ)
    (coeffs : ℕ → List (F q)) (pokNonce : ℕ → F q) (i : ℕ) (hi : i < n) :
    mySecretShares q (allSecretSharesOf q (dkgParticipants q Hp n coeffs pokNonce) coeffs) i =
      ((List.range n).filter (fun j => j ≠ i)).map
        (fun j => ⟨i + 1, evalPoly q (coeffs j) ((i + 1 : ℕ) : F q)⟩) := by
  have hlen : (dkgParticipants q Hp n coeffs pokNonce).length = n := by
    simp [dkgParticipants]
  have hget : ∀ m, m < n → (dkgParticipants q Hp n coeffs pokNonce).get? m =
      some (participantNew q Hp (m + 1) (coeffs m) (pokNonce m)) := by
    intro m hm
    rw [dkgParticipants, List.get?_map, List.get?_range hm]
    rfl
  rw [allSecretSharesOf, hlen, mySecretShares, enum_map_range]
  rw [List.filter_map, List.filterMap_map]
  have hpred : ((fun jp : ℕ × List (SecretShareM q) => decide (jp.1 ≠ i)) ∘
      (fun j => (j, theirSecretShares q (coeffs j)
        ((dkgParticipants q Hp n coeffs pokNonce).eraseIdx j)))) =
      (fun j => decide (j ≠ i)) := rfl
  rw [hpred]
  apply filterMap_eq_map_of_some
  intro j hj
  have hjmem := List.mem_filter.mp hj
  have hjn : j < n := List.mem_range.mp hjmem.1
  have hji : j ≠ i := by simpa using hjmem.2
  show (theirSecretShares q (coeffs j)
      ((dkgParticipants q Hp n coeffs pokNonce).eraseIdx j)).get? (if i < j then i else i - 1) = _
  rw [theirSecretShares, List.get?_map, get?_eraseIdx_general]
  by_cases hij : i < j
  · have hpos : (if i < j then i else i - 1) = i := if_pos hij
    rw [hpos, if_pos hij, hget i hi]
    rfl
  · have hji2 : j < i := by omega
    have hpos : (if i < j then i else i - 1) = i - 1 := if_neg hij
    rw [hpos, if_neg (by omega : ¬i - 1 < j)]
    have hone : i - 1 + 1 = i := by omega
    rw [hone, hget i hi]
    rfl

/-- C3: the share-redistribution step routes to participant i exactly n - 1
secret shares, one from each other participant j in ascending order, and the
share received from j is the evaluation of the polynomial of j at the 1-based
index of i; hence the received count always equals the expected n - 1 and the
incorrect-number-of-shares error branch is unreachable. -/
theorem share_redistribution_exact (q : ℕ) (Hp : ℕ → F q → F q → F q) (n : ℕ)
    (coeffs : ℕ → List (F q)) (pokNonce : ℕ → F q) (i : ℕ) (hi : i < n) :
    mySecretShares q (allSecretSharesOf q (dkgParticipants q Hp n coeffs pokNonce) coeffs) i =
      ((List.range n).filter (fun j => j ≠ i)).map
        (fun j => ⟨i + 1, evalPoly q (coeffs j) ((i + 1 : ℕ) : F q)⟩) ∧
      (mySecretShares q (allSecretSharesOf q
        (dkgParticipants q Hp n coeffs pokNonce) coeffs) i).length = n - 1 := by
  refine ⟨mySecretShares_closed q Hp n coeffs pokNonce i hi, ?_⟩
  rw [mySecretShares_closed q Hp n coeffs pokNonce i hi, List.length_map,
    length_filter_ne_range n i hi]

/-- Witness for C3 with q = 5, n = 3, i = 1 and all polynomials X + 1. -/
theorem share_redistribution_exact_witness :
    (1 : ℕ) < 3 ∧
      (mySecretShares 5 (allSecretSharesOf 5
          (dkgParticipants 5 (fun _ _ _ => 0) 3 (fun _ => [1, 1]) (fun _ => 0))
          (fun _ => [1, 1])) 1 =
        ((List.range 3).filter (fun j => j ≠ 1)).map
          (fun j => ⟨1 + 1, evalPoly 5 [(1 : F 5), 1] ((1 + 1 : ℕ) : F 5)⟩) ∧
       (mySecretShares 5 (allSecretSharesOf 5
          (dkgParticipants 5 (fun _ _ _ => 0) 3 (fun _ => [1, 1]) (fun _ => 0))
          (fun _ => [1, 1])) 1).length = 3 - 1) :=
  ⟨by decide, share_redistribution_exact 5 (fun _ _ _ => 0) 3 (fun _ => [1, 1])
    (fun _ => 0) 1 (by decide)⟩

/-- Honest participants always pass the proof-of-secret-key check. -/
theorem pokCheckAll_ok (q : ℕ) (Hp : ℕ → F q → F q → F q) (coeffs : ℕ → List (F q))
    (pokNonce : ℕ → F q) :
    ∀ (L : List ℕ), (∀ i ∈ L, coeffs i ≠ []) →
      pokCheckAll q Hp
        (L.map (fun i => participantNew q Hp (i + 1) (coeffs i) (pokNonce i))) =
        Outcome.ok () := by
  intro L
  induction L with
  | nil => intro _; rfl
  | cons i L ih =>
      intro h
      obtain ⟨c, cs, hc⟩ := List.exists_cons_of_ne_nil (h i (List.mem_cons_self i L))
      have hhead : (participantNew q Hp (i + 1) (coeffs i) (pokNonce i)).commitments.head? =
          some c := by
        simp [participantNew, hc]
      have hver : pokVerify q Hp (participantNew q Hp (i + 1) (coeffs i) (pokNonce i)) c =
          true := by
        simp [pokVerify, participantNew, hc]
      rw [List.map_cons, pokCheckAll, hhead]
      show (if pokVerify q Hp (participantNew q Hp (i + 1) (coeffs i) (pokNonce i)) c = true
        then pokCheckAll q Hp
          (List.map (fun i => participantNew q Hp (i + 1) (coeffs i) (pokNonce i)) L)
        else Outcome.err (FrostError.proofVerificationFailed
          (participantNew q Hp (i + 1) (coeffs i) (pokNonce i)).index)) = Outcome.ok ()
      rw [hver, if_pos rfl]
      exact ih (fun j hj => h j (List.mem_cons_of_mem i hj))

/-- The commitments the round-two state of participant i checks received
shares against are exactly the polynomials of the other participants. -/
theorem sendersCommitments_closed (q : ℕ) (Hp : ℕ → F q → F q → F q) (n : ℕ)
    (coeffs : ℕ → List (F q)) (pokNonce : ℕ → F q) (i : ℕ) (hi : i < n) :
    ((dkgParticipants q Hp n coeffs pokNonce).eraseIdx i).map ParticipantM.commitments =
      ((List.range n).filter (fun j => j ≠ i)).map (fun j => coeffs j) := by
  rw [dkgParticipants, eraseIdx_map_general, eraseIdx_range n i hi, List.map_map]
  rfl

/-- Honest shares always validate against the sender commitments. -/
theorem vssCheck_ok (q : ℕ) (coeffs : ℕ → List (F q)) (i : ℕ) (Lf : List ℕ) :
    vssCheck q (Lf.map (fun j => coeffs j))
      (Lf.map (fun j => ⟨i + 1, evalPoly q (coeffs j) ((i + 1 : ℕ) : F q)⟩)) = true := by
  rw [vssCheck, List.zip_map']
  apply List.all_eq_true.mpr
  intro pc hpc
  obtain ⟨j, hj, hpcj⟩ := List.mem_map.mp hpc
  rw [← hpcj]
  simp

/-- The round-two loop of generate_keys succeeds on honest data. -/
theorem roundTwoCheckFrom_ok (q : ℕ) (Hp : ℕ → F q → F q → F q) (n : ℕ)
    (coeffs : ℕ → List (F q)) (pokNonce : ℕ → F q) :
    ∀ (L : List ℕ), (∀ i ∈ L, i < n) →
      roundTwoCheckFrom q (dkgParticipants q Hp n coeffs pokNonce)
        (allSecretSharesOf q (dkgParticipants q Hp n coeffs pokNonce) coeffs) n L =
        Outcome.ok () := by
  intro L
  induction L with
  | nil => intro _; rfl
  | cons i L ih =>
      intro h
      have hi : i < n := h i (List.mem_cons_self i L)
      have hms := mySecretShares_closed q Hp n coeffs pokNonce i hi
      have hlen : (mySecretShares q (allSecretSharesOf q
          (dkgParticipants q Hp n coeffs pokNonce) coeffs) i).length = n - 1 := by
        rw [hms, List.length_map, length_filter_ne_range n i hi]
      rw [roundTwoCheckFrom]
      rw [if_neg (by rw [hlen]; exact fun hcc => hcc rfl)]
      rw [if_pos]
      · exact ih (fun j hj => h j (List.mem_cons_of_mem i hj))
      · rw [hms, sendersCommitments_closed q Hp n coeffs pokNonce i hi]
        exact vssCheck_ok q coeffs i _

/-- The assert chain passes on a constant list. -/
theorem assertChain_replicate (q : ℕ) (x : F q) :
    ∀ (k : ℕ), assertChain q (List.replicate k x) = true
  | 0 => rfl
  | 1 => rfl
  | (k + 2) => by
      show (decide (x = x) && assertChain q (List.replicate (k + 1) x)) = true
      rw [assertChain_replicate q x (k + 1)]
      simp

/-- C2: for all 1 <= t <= n with degree t - 1 polynomials, generate_keys
succeeds and returns one single group key (committing to the sum of all
constant terms) together with exactly n private shares, share i + 1 being the
sum of all polynomials evaluated at i + 1; in particular every participant
finalization computed the identical group key and the assert_eq chain never
fires. -/
theorem generate_keys_ok (q : ℕ) (Hp : ℕ → F q → F q → F q) (t n : ℕ)
    (coeffs : ℕ → List (F q)) (pokNonce : ℕ → F q)
    (h1 : 1 ≤ t) (h2 : t ≤ n) (hc : ∀ j, j < n → (coeffs j).length = t) :
    generate_keys q Hp t n coeffs pokNonce =
      Outcome.ok ⟨some (groupSecret q coeffs n),
        (List.range n).map (fun i => (some (totalShare q coeffs n (i + 1)), i + 1))⟩ := by
  have hne : ∀ j, j < n → coeffs j ≠ [] := by
    intro j hj hnil
    have := hc j hj
    rw [hnil] at this
    simp at this
    omega
  have hpok : pokCheckAll q Hp (dkgParticipants q Hp n coeffs pokNonce) = Outcome.ok () := by
    rw [dkgParticipants]
    exact pokCheckAll_ok q Hp coeffs pokNonce (List.range n)
      (fun i hil => hne i (List.mem_range.mp hil))
  have hround : roundTwoCheckFrom q (dkgParticipants q Hp n coeffs pokNonce)
      (allSecretSharesOf q (dkgParticipants q Hp n coeffs pokNonce) coeffs) n
      (List.range n) = Outcome.ok () :=
    roundTwoCheckFrom_ok q Hp n coeffs pokNonce (List.range n)
      (fun i hil => List.mem_range.mp hil)
  have hall : (dkgParticipants q Hp n coeffs pokNonce).all
      (fun p => p.commitments.head?.isSome) = true := by
    apply List.all_eq_true.mpr
    intro p hp
    rw [dkgParticipants] at hp
    obtain ⟨i, hil, hpi⟩ := List.mem_map.mp hp
    obtain ⟨c, cs, hcc⟩ := List.exists_cons_of_ne_nil (hne i (List.mem_range.mp hil))
    rw [← hpi]
    simp [participantNew, hcc]
  have hgks : (List.range n).map
      (fun _ => finishGroupKey q (dkgParticipants q Hp n coeffs pokNonce)) =
      List.replicate n (finishGroupKey q (dkgParticipants q Hp n coeffs pokNonce)) := by
    rw [List.map_const']
    simp
  have hassert : assertChain q ((List.range n).map
      (fun _ => finishGroupKey q (dkgParticipants q Hp n coeffs pokNonce))) = true := by
    rw [hgks]
    exact assertChain_replicate q _ n
  have hn1 : 1 ≤ n := le_trans h1 h2
  have hhead : ((List.range n).map
      (fun _ => finishGroupKey q (dkgParticipants q Hp n coeffs pokNonce))).head? =
      some (finishGroupKey q (dkgParticipants q Hp n coeffs pokNonce)) := by
    rw [hgks]
    cases n with
    | zero => omega
    | succ m => rfl
  have hgk : finishGroupKey q (dkgParticipants q Hp n coeffs pokNonce) =
      groupSecret q coeffs n := by
    rw [finishGroupKey, dkgParticipants, List.map_map, groupSecret]
    rfl
  have hsecrets : (List.range n).map
      (fun i => finishSecret q (coeffs i) (i + 1) (mySecretShares q
        (allSecretSharesOf q (dkgParticipants q Hp n coeffs pokNonce) coeffs) i)) =
      (List.range n).map (fun i => totalShare q coeffs n (i + 1)) := by
    apply List.map_congr_left
    intro i hil
    have hi : i < n := List.mem_range.mp hil
    rw [finishSecret, mySecretShares_closed q Hp n coeffs pokNonce i hi, List.map_map]
    have hvals : (((List.range n).filter (fun j => j ≠ i)).map
        (SecretShareM.value ∘ fun j =>
          (⟨i + 1, evalPoly q (coeffs j) ((i + 1 : ℕ) : F q)⟩ : SecretShareM q))) =
        ((List.range n).filter (fun j => j ≠ i)).map
          (fun j => evalPoly q (coeffs j) ((i + 1 : ℕ) : F q)) := rfl
    rw [hvals, totalShare]
    exact sum_filter_ne_add (fun j => evalPoly q (coeffs j) ((i + 1 : ℕ) : F q)) n i hi
  simp only [generate_keys]
  rw [hpok, hround, if_pos hall, if_pos hassert, hhead, hgk, hsecrets, enum_map_range]
  rw [List.map_map]
  rfl

/-! ## Field and signing-pipeline lemmas -/

theorem finv_eq_inv (q : ℕ) [Fact (Nat.Prime q)] (x : F q) (hx : x ≠ 0) :
    finv q x = x⁻¹ := by
  have hq : 2 ≤ q := (Fact.out : q.Prime).two_le
  have h1 : x ^ (q - 1) = 1 := ZMod.pow_card_sub_one_eq_one hx
  have h2 : q - 1 = (q - 2) + 1 := by omega
  have h3 : x ^ (q - 2) * x = 1 := by rw [← pow_succ, ← h2, h1]
  rw [finv]
  exact eq_inv_of_mul_eq_one_left h3

theorem sum_map_add {α M : Type} [AddCommMonoid M] (l : List α) (f g : α → M) :
    (l.map (fun x => f x + g x)).sum = (l.map f).sum + (l.map g).sum := by
  induction l with
  | nil => simp
  | cons x l ih =>
      simp only [List.map_cons, List.sum_cons, ih]
      abel

theorem zip_truncate {α β : Type} : ∀ (l1 : List α) (l2 : List β),
    l1.zip l2 = (l1.take l2.length).zip l2
  | [], _ => by simp
  | _ :: _, [] => by simp
  | a :: l1, b :: l2 => by
      rw [List.zip_cons_cons, List.length_cons, List.take_succ_cons, List.zip_cons_cons,
        zip_truncate l1 l2]

theorem zip_map_range {α β : Type} (kf : ℕ → α) (df : ℕ → β) (n t : ℕ) (h : t ≤ n) :
    ((List.range n).map kf).zip ((List.range t).map df) =
      (List.range t).map (fun p => (kf p, df p)) := by
  rw [zip_truncate, List.length_map, List.length_range, ← List.map_take, List.take_range,
    Nat.min_eq_left h, List.zip_map']

theorem lookup_map_range' {β : Type} (w : ℕ → β) :
    ∀ (n s i : ℕ), s ≤ i → i < s + n →
      ((List.range' s n).map (fun p => (p + 1, w p))).lookup (i + 1) = some (w i)
  | 0, _, i, h1, h2 => by omega
  | n + 1, s, i, h1, h2 => by
      show List.lookup (i + 1)
        ((s + 1, w s) :: (List.range' (s + 1) n).map (fun p => (p + 1, w p))) = some (w i)
      by_cases his : i = s
      · subst his
        simp [List.lookup]
      · have hne : (i + 1 == s + 1) = false := by
          simp only [beq_eq_false_iff_ne, ne_eq]
          omega
        show (match i + 1 == s + 1 with
          | true => some (w s)
          | false => List.lookup (i + 1)
              ((List.range' (s + 1) n).map (fun p => (p + 1, w p)))) = some (w i)
        rw [hne]
        exact lookup_map_range' w n (s + 1) i (by omega) (by omega)

theorem lookup_map_range {β : Type} (w : ℕ → β) (t i : ℕ) (hi : i < t) :
    ((List.range t).map (fun p => (p + 1, w p))).lookup (i + 1) = some (w i) := by
  rw [List.range_eq_range']
  exact lookup_map_range' w t 0 i (Nat.zero_le i) (by omega)

theorem foldl_includeSigner (q : ℕ) :
    ∀ (es acc : List (SignerEntry q)),
      (acc ++ es).Pairwise (fun a b => a.idx ≠ b.idx) →
      es.foldl (includeSigner q) acc = acc ++ es
  | [], acc, _ => by simp
  | e :: es, acc, hp => by
      have hcross := (List.pairwise_append.mp hp).2.2
      have hnotin : ∀ x ∈ acc, ¬(x.idx = e.idx) :=
        fun x hx => hcross x hx e (List.mem_cons_self e es)
      have hany : acc.any (fun x => decide (x.idx = e.idx)) = false := by
        rw [List.any_eq_false]
        intro x hx
        simp only [decide_eq_true_eq]
        exact hnotin x hx
      rw [List.foldl_cons, includeSigner, if_neg (by simp [hany])]
      have hassoc : (acc ++ [e]) ++ es = acc ++ e :: es := by simp
      rw [foldl_includeSigner q es (acc ++ [e]) (by rw [hassoc]; exact hp), hassoc]

theorem sortedSigners_of_sorted (q : ℕ) (es : List (SignerEntry q))
    (hs : es.Pairwise (fun a b => a.idx ≤ b.idx)) :
    sortedSigners q es = es := by
  rw [sortedSigners]
  exact List.Sorted.insertionSort_eq hs

theorem mapM_map_eq_map {α β γ : Type} (f : β → Option γ) (g : α → β) (u : α → γ) :
    ∀ (l : List α), (∀ a ∈ l, f (g a) = some (u a)) → (l.map g).mapM f = some (l.map u)
  | [], _ => rfl
  | a :: l, h => by
      rw [List.map_cons, List.mapM_cons, h a (List.mem_cons_self a l),
        mapM_map_eq_map f g u l (fun b hb => h b (List.mem_cons_of_mem a hb)), List.map_cons]
      rfl

theorem mapM_length_option {α β : Type} (f : α → Option β) :
    ∀ (l : List α) (r : List β), l.mapM f = some r → r.length = l.length
  | [], r, h => by
      rw [List.mapM_nil] at h
      cases h
      rfl
  | a :: l, r, h => by
      rw [List.mapM_cons] at h
      cases hfa : f a with
      | none => rw [hfa] at h; simp at h
      | some b =>
          rw [hfa] at h
          cases hml : l.mapM f with
          | none => rw [hml] at h; simp at h
          | some bs =>
              rw [hml] at h
              have hr : b :: bs = r := by simpa using h
              rw [← hr]
              simp [mapM_length_option f l bs hml]

theorem decodeShares_length (q : ℕ) (shares : List (Option (F q) × ℕ))
    (sks : List (ℕ × F q)) (h : decodeShares q shares = some sks) :
    sks.length = shares.length :=
  mapM_length_option _ shares sks h

theorem sign_message_reduce (q : ℕ) (env : HashEnv q) (msg : List ℕ) (t n : ℕ)
    (keys : FrostKeysM q) (nonces : ℕ → ℕ → F q × F q) (gk : F q) (sks : List (ℕ × F q))
    (hgk : keys.group_key = some gk)
    (hdec : decodeShares q keys.private_shares = some sks)
    (ht : t ≤ sks.length) :
    sign_message q env msg t n keys nonces =
      match finalizeSigners q t (sessionSigners q nonces sks t) with
      | Outcome.err e => Outcome.err e
      | Outcome.panicked => Outcome.panicked
      | Outcome.ok _ => aggregateSigs q env (env.msgHash signingContext msg) gk
          (sessionSigners q nonces sks t)
          (sessionPartials q env (env.msgHash signingContext msg) gk nonces sks t
            (sessionSigners q nonces sks t)) := by
  simp only [sign_message, hgk, hdec]
  rw [if_pos ht]

theorem sign_message_panic (q : ℕ) (env : HashEnv q) (msg : List ℕ) (t n : ℕ)
    (keys : FrostKeysM q) (nonces : ℕ → ℕ → F q × F q) (gk : F q) (sks : List (ℕ × F q))
    (hgk : keys.group_key = some gk)
    (hdec : decodeShares q keys.private_shares = some sks)
    (ht : ¬t ≤ sks.length) :
    sign_message q env msg t n keys nonces = Outcome.panicked := by
  simp only [sign_message, hgk, hdec]
  rw [if_neg ht]

theorem aggregateSigs_ne_panicked (q : ℕ) (env : HashEnv q) (h gk : F q)
    (signers : List (SignerEntry q)) (zs : List (ℕ × F q)) :
    aggregateSigs q env h gk signers zs ≠ Outcome.panicked := by
  intro hco
  simp only [aggregateSigs] at hco
  split at hco
  · exact Outcome.noConfusion hco
  · split at hco
    · exact Outcome.noConfusion hco
    · exact Outcome.noConfusion hco

/-! ## Claim C10: the unchecked slice in sign_message -/

/-- C10 counterexample: with a key file whose group-key bytes do not decode
and no share entries, t = 2 exceeds the entry count 0, yet sign_message
returns an error (from GroupKey::from_bytes, before the slice) and does not
panic; so the claim, as stated, is false. -/
theorem sign_message_no_panic_on_undecodable :
    (2 : ℕ) > (FrostKeysM.mk (none : Option (F 5)) []).private_shares.length ∧
      sign_message 5 envC [0] 2 3 ⟨none, []⟩ (fun _ _ => (0, 0)) =
        Outcome.err FrostError.malformedKeyMaterial ∧
      sign_message 5 envC [0] 2 3 ⟨none, []⟩ (fun _ _ => (0, 0)) ≠ Outcome.panicked :=
  ⟨by decide, by decide, by decide⟩

/-- C10 amended: when the group key and every private-share entry decode
successfully, sign_message panics (out-of-bounds slice secret_keys[0..t])
exactly when t exceeds the number of private_shares entries in the key file,
and never panics when the key file holds at least t shares; with undecodable
key material it returns an error before reaching the slice. -/
theorem sign_message_panic_iff_slice (q : ℕ) (env : HashEnv q) (msg : List ℕ) (t n : ℕ)
    (keys : FrostKeysM q) (nonces : ℕ → ℕ → F q × F q) (gk : F q) (sks : List (ℕ × F q))
    (hgk : keys.group_key = some gk)
    (hdec : decodeShares q keys.private_shares = some sks) :
    (t > keys.private_shares.length →
      sign_message q env msg t n keys nonces = Outcome.panicked) ∧
    (t ≤ keys.private_shares.length →
      sign_message q env msg t n keys nonces ≠ Outcome.panicked) := by
  have hlen : sks.length = keys.private_shares.length := decodeShares_length q _ _ hdec
  constructor
  · intro hgt
    exact sign_message_panic q env msg t n keys nonces gk sks hgk hdec (by omega)
  · intro hle
    rw [sign_message_reduce q env msg t n keys nonces gk sks hgk hdec (by omega)]
    cases hfin : finalizeSigners q t (sessionSigners q nonces sks t) with
    | ok u => exact aggregateSigs_ne_panicked q env _ gk _ _
    | err e => exact fun hco => Outcome.noConfusion hco
    | panicked =>
        rw [finalizeSigners] at hfin
        split at hfin
        · exact Outcome.noConfusion hfin
        · exact Outcome.noConfusion hfin

/-- Witness for the amended C10 at a concrete key file with one share. -/
theorem sign_message_panic_iff_slice_witness :
    (FrostKeysM.mk (some (1 : F 5)) [(some 1, 1)]).group_key = some 1 ∧
      decodeShares 5 ([(some 1, 1)] : List (Option (F 5) × ℕ)) = some [(1, 1)] ∧
      ((2 > (FrostKeysM.mk (some (1 : F 5)) [(some 1, 1)]).private_shares.length →
          sign_message 5 envC [0] 2 3 ⟨some 1, [(some 1, 1)]⟩ (fun _ _ => (0, 0)) =
            Outcome.panicked) ∧
        (2 ≤ (FrostKeysM.mk (some (1 : F 5)) [(some 1, 1)]).private_shares.length →
          sign_message 5 envC [0] 2 3 ⟨some 1, [(some 1, 1)]⟩ (fun _ _ => (0, 0)) ≠
            Outcome.panicked)) :=
  ⟨rfl, by decide, sign_message_panic_iff_slice 5 envC [0] 2 3 ⟨some 1, [(some 1, 1)]⟩
    (fun _ _ => (0, 0)) 1 [(1, 1)] rfl (by decide)⟩

/-! ## Claim C6: fewer than t signers never produce a signature -/

/-- C6: if fewer than t signers are registered with the aggregator when the
session finalizes, finalization fails with InsufficientSigners carrying the
have/need counts, sign_message propagates exactly that error, and no
signature value is produced (so no signature file is written).  Inside
sign_message this arises when the first t key-file entries repeat an index,
since a repeated index is rejected at include_signer. -/
theorem insufficient_signers_never_signs (q : ℕ) (env : HashEnv q) (msg : List ℕ)
    (t n : ℕ) (keys : FrostKeysM q) (nonces : ℕ → ℕ → F q × F q) (gk : F q)
    (sks : List (ℕ × F q))
    (hgk : keys.group_key = some gk)
    (hdec : decodeShares q keys.private_shares = some sks)
    (ht : t ≤ sks.length)
    (hfew : (sessionSigners q nonces sks t).length < t) :
    sign_message q env msg t n keys nonces =
      Outcome.err (FrostError.insufficientSigners
        (sessionSigners q nonces sks t).length t) := by
  rw [sign_message_reduce q env msg t n keys nonces gk sks hgk hdec ht]
  have hfin : finalizeSigners q t (sessionSigners q nonces sks t) =
      Outcome.err (FrostError.insufficientSigners
        (sessionSigners q nonces sks t).length t) := by
    rw [finalizeSigners, if_pos hfew]
  rw [hfin]

/-- Witness for C6 at a key file whose two entries carry the same index 1. -/
theorem insufficient_signers_never_signs_witness :
    (FrostKeysM.mk (some (1 : F 5)) [(some 1, 1), (some 2, 1)]).group_key = some 1 ∧
      decodeShares 5 ([(some 1, 1), (some 2, 1)] : List (Option (F 5) × ℕ)) =
        some [(1, 1), (1, 2)] ∧
      2 ≤ ([((1 : ℕ), (1 : F 5)), (1, 2)]).length ∧
      (sessionSigners 5 (fun _ _ => (0, 0)) [(1, 1), (1, 2)] 2).length < 2 ∧
      sign_message 5 envC [0] 2 3 ⟨some 1, [(some 1, 1), (some 2, 1)]⟩ (fun _ _ => (0, 0)) =
        Outcome.err (FrostError.insufficientSigners
          (sessionSigners 5 (fun _ _ => (0, 0)) [(1, 1), (1, 2)] 2).length 2) :=
  ⟨rfl, by decide, by decide, by decide,
    insufficient_signers_never_signs 5 envC [0] 2 3 ⟨some 1, [(some 1, 1), (some 2, 1)]⟩
      (fun _ _ => (0, 0)) 1 [(1, 1), (1, 2)] rfl (by decide) (by decide) (by decide)⟩

/-! ## Polynomial bridge and the interpolation argument -/

theorem listToPoly_eval (q : ℕ) : ∀ (l : List (F q)) (x : F q),
    (listToPoly q l).eval x = evalPoly q l x
  | [], x => by
      show (0 : Polynomial (F q)).eval x = 0
      simp
  | a :: l, x => by
      show (Polynomial.C a + Polynomial.X * listToPoly q l).eval x = a + x * evalPoly q l x
      rw [Polynomial.eval_add, Polynomial.eval_mul, Polynomial.eval_C, Polynomial.eval_X,
        listToPoly_eval q l x]

theorem evalPoly_zero (q : ℕ) (l : List (F q)) (hl : l ≠ []) :
    evalPoly q l 0 = l.headI := by
  obtain ⟨c, cs, hc⟩ := List.exists_cons_of_ne_nil hl
  subst hc
  show c + 0 * evalPoly q cs 0 = c
  rw [zero_mul, add_zero]

theorem listToPoly_degree_lt (q : ℕ) [Fact (Nat.Prime q)] : ∀ (l : List (F q)),
    (listToPoly q l).degree < ((l.length : ℕ) : WithBot ℕ)
  | [] => by
      show (0 : Polynomial (F q)).degree < ((0 : ℕ) : WithBot ℕ)
      rw [Polynomial.degree_zero]
      exact WithBot.bot_lt_coe 0
  | a :: l => by
      have ih := listToPoly_degree_lt q l
      show (Polynomial.C a + Polynomial.X * listToPoly q l).degree <
        ((l.length + 1 : ℕ) : WithBot ℕ)
      apply lt_of_le_of_lt (Polynomial.degree_add_le _ _)
      rw [max_lt_iff]
      constructor
      · apply lt_of_le_of_lt Polynomial.degree_C_le
        exact_mod_cast Nat.succ_pos l.length
      · by_cases hp : listToPoly q l = 0
        · rw [hp, mul_zero, Polynomial.degree_zero]
          exact WithBot.bot_lt_coe _
        · rw [Polynomial.degree_mul, Polynomial.degree_X, Polynomial.degree_eq_natDegree hp]
          have hlt : (listToPoly q l).natDegree < l.length := by
            have h3 := ih
            rw [Polynomial.degree_eq_natDegree hp] at h3
            exact_mod_cast h3
          have h2 : 1 + (listToPoly q l).natDegree < l.length + 1 := by omega
          exact_mod_cast h2

theorem sum_listToPoly_degree_lt (q : ℕ) [Fact (Nat.Prime q)] (coeffs : ℕ → List (F q))
    (n t : ℕ) (hc : ∀ j, j < n → (coeffs j).length = t) :
    (∑ j ∈ Finset.range n, listToPoly q (coeffs j)).degree < ((t : ℕ) : WithBot ℕ) := by
  apply lt_of_le_of_lt (Polynomial.degree_sum_le _ _)
  refine (Finset.sup_lt_iff (WithBot.bot_lt_coe t)).mpr ?_
  intro j hj
  have h3 := listToPoly_degree_lt q (coeffs j)
  rwa [hc j (Finset.mem_range.mp hj)] at h3

theorem natCast_inj_of_lt (q : ℕ) [NeZero q] (a b : ℕ) (ha : a < q) (hb : b < q)
    (h : (a : F q) = (b : F q)) : a = b := by
  have h2 := congrArg ZMod.val h
  rwa [ZMod.val_cast_of_lt ha, ZMod.val_cast_of_lt hb] at h2

theorem lagrangeCoeff_eq_basis_eval (q : ℕ) [Fact (Nat.Prime q)] (L : List ℕ)
    (hnd : L.Nodup) (hlt : ∀ j ∈ L, j < q) (m : ℕ) (hm : m ∈ L) :
    lagrangeCoeff q L m = (Lagrange.basis L.toFinset (fun j : ℕ => (j : F q)) m).eval 0 := by
  haveI : NeZero q := ⟨(Fact.out : q.Prime).ne_zero⟩
  rw [lagrangeCoeff]
  have hndf : (L.filter (fun j => decide (j ≠ m))).Nodup := hnd.filter _
  rw [← List.prod_toFinset (M := F q)
    (fun j : ℕ => fdiv q (j : F q) ((j : F q) - (m : F q))) hndf]
  have h2 : (L.filter (fun j => decide (j ≠ m))).toFinset = L.toFinset.erase m := by
    ext a
    simp only [List.mem_toFinset, List.mem_filter, Finset.mem_erase, decide_eq_true_eq]
    exact and_comm
  rw [h2, Lagrange.basis, Polynomial.eval_prod]
  apply Finset.prod_congr rfl
  intro j hj
  have hjm : j ≠ m := (Finset.mem_erase.mp hj).1
  have hjL : j ∈ L := List.mem_toFinset.mp (Finset.mem_erase.mp hj).2
  have hcast : ((j : F q) - (m : F q)) ≠ 0 := by
    intro hzero
    rw [sub_eq_zero] at hzero
    exact hjm (natCast_inj_of_lt q j m (hlt j hjL) (hlt m hm) hzero)
  rw [Lagrange.basisDivisor, Polynomial.eval_mul, Polynomial.eval_C, Polynomial.eval_sub,
    Polynomial.eval_X, Polynomial.eval_C]
  rw [fdiv, finv_eq_inv q _ hcast]
  have hswap : (m : F q) - (j : F q) = -((j : F q) - (m : F q)) := by ring
  rw [hswap, inv_neg]
  ring

theorem sum_lagrange_eval_zero (q : ℕ) [Fact (Nat.Prime q)] (L : List ℕ) (hnd : L.Nodup)
    (hlt : ∀ j ∈ L, j < q) (f : Polynomial (F q))
    (hdeg : f.degree < ((L.length : ℕ) : WithBot ℕ)) :
    (L.map (fun m => lagrangeCoeff q L m * f.eval ((m : ℕ) : F q))).sum = f.eval 0 := by
  haveI : NeZero q := ⟨(Fact.out : q.Prime).ne_zero⟩
  have hinj : Set.InjOn (fun j : ℕ => (j : F q)) L.toFinset := by
    intro a ha b hb hab
    exact natCast_inj_of_lt q a b (hlt a (List.mem_toFinset.mp ha))
      (hlt b (List.mem_toFinset.mp hb)) hab
  have hcard : L.toFinset.card = L.length := List.toFinset_card_of_nodup hnd
  have hdeg2 : f.degree < L.toFinset.card := by
    rw [hcard]
    exact_mod_cast hdeg
  have hf := Lagrange.eq_interpolate hinj hdeg2
  rw [← List.sum_toFinset _ hnd]
  conv_rhs => rw [hf, Lagrange.interpolate_apply]
  rw [Polynomial.eval_finset_sum]
  apply Finset.sum_congr rfl
  intro m hm
  rw [Polynomial.eval_mul, Polynomial.eval_C,
    lagrangeCoeff_eq_basis_eval q L hnd hlt m (List.mem_toFinset.mp hm)]
  ring

/-! ## Closed forms of one honest signing session -/

theorem pairwise_entries (q : ℕ) {R : SignerEntry q → SignerEntry q → Prop}
    (efun : ℕ → SignerEntry q) (t : ℕ) (hmono : ∀ a b, a < b → R (efun a) (efun b)) :
    ((List.range t).map efun).Pairwise R := by
  rw [List.pairwise_map]
  exact (List.pairwise_lt_range t).imp (fun {a b} hab => hmono a b hab)

theorem sessionSigners_closed (q : ℕ) (nonces : ℕ → ℕ → F q × F q) (kv : ℕ → F q)
    (n t : ℕ) (ht : t ≤ n) :
    sessionSigners q nonces ((List.range n).map (fun i => (i + 1, kv (i + 1)))) t =
      honestSigners q nonces kv t := by
  rw [sessionSigners, honestSigners]
  have htake : ((List.range n).map (fun i => (i + 1, kv (i + 1)))).take t =
      (List.range t).map (fun i => (i + 1, kv (i + 1))) := by
    rw [← List.map_take, List.take_range, Nat.min_eq_left ht]
  rw [htake, enum_map_range, List.map_map]
  have hentries : ((fun pe => signerEntryAt q nonces pe.1 pe.2) ∘
      (fun j => (j, (j + 1, kv (j + 1))))) =
      (fun p => (⟨p + 1, nonces p 0, kv (p + 1)⟩ : SignerEntry q)) := rfl
  rw [hentries]
  have hne : (([] : List (SignerEntry q)) ++
      (List.range t).map (fun p => (⟨p + 1, nonces p 0, kv (p + 1)⟩ : SignerEntry q))).Pairwise
      (fun a b => a.idx ≠ b.idx) := by
    rw [List.nil_append]
    exact pairwise_entries q _ t (fun a b hab => by show a + 1 ≠ b + 1; omega)
  rw [foldl_includeSigner q _ [] hne, List.nil_append]
  exact sortedSigners_of_sorted q _
    (pairwise_entries q _ t (fun a b hab => by show a + 1 ≤ b + 1; omega))

theorem sessionPartials_closed (q : ℕ) (env : HashEnv q) (h gk : F q)
    (nonces : ℕ → ℕ → F q × F q) (kv : ℕ → F q) (n t : ℕ) (ht : t ≤ n) :
    sessionPartials q env h gk nonces ((List.range n).map (fun i => (i + 1, kv (i + 1)))) t
      (honestSigners q nonces kv t) = honestPartials q env h gk kv nonces t := by
  rw [sessionPartials, honestPartials]
  have htake : ((List.range n).map (fun i => (i + 1, kv (i + 1)))).take t =
      (List.range t).map (fun i => (i + 1, kv (i + 1))) := by
    rw [← List.map_take, List.take_range, Nat.min_eq_left ht]
  rw [htake, enum_map_range, List.map_map]
  have hsec : ((fun pe => (generateCommitmentShareLists q (nonces pe.1) 1).2.headI) ∘
      (fun j => (j, (j + 1, kv (j + 1))))) = (fun p => nonces p 0) := rfl
  rw [hsec, zip_map_range _ _ n t ht, List.map_map]
  rfl

theorem aggregateSigs_honest (q : ℕ) (env : HashEnv q) (h gk : F q) (kv : ℕ → F q)
    (nonces : ℕ → ℕ → F q × F q) (t : ℕ)
    (hsum : (((List.range t).map (fun p => p + 1)).map
        (fun m => lagrangeCoeff q ((List.range t).map (fun p => p + 1)) m * kv m)).sum = gk) :
    aggregateSigs q env h gk (honestSigners q nonces kv t)
      (honestPartials q env h gk kv nonces t) =
      Outcome.ok (groupCommitment q env h (honestSigners q nonces kv t),
        groupCommitment q env h (honestSigners q nonces kv t) +
          env.challenge (groupCommitment q env h (honestSigners q nonces kv t)) gk h * gk) := by
  have hlook : ∀ p, p < t → (honestPartials q env h gk kv nonces t).lookup (p + 1) =
      some (signerShare q env h gk (kv (p + 1)) (p + 1) (nonces p 0).1 (nonces p 0).2
        (honestSigners q nonces kv t)) := by
    intro p hp
    rw [honestPartials]
    exact lookup_map_range _ t p hp
  have hidx : (honestSigners q nonces kv t).map SignerEntry.idx =
      (List.range t).map (fun p => p + 1) := by
    rw [honestSigners, List.map_map]
    rfl
  simp only [aggregateSigs]
  have hfs : (honestSigners q nonces kv t).findSome? (fun sg =>
      match (honestPartials q env h gk kv nonces t).lookup sg.idx with
      | none => some sg.idx
      | some z =>
          if z = sg.com.1 +
              bindingFactor q env h (honestSigners q nonces kv t) sg.idx * sg.com.2 +
              env.challenge (groupCommitment q env h (honestSigners q nonces kv t)) gk h *
                lagrangeCoeff q ((honestSigners q nonces kv t).map SignerEntry.idx) sg.idx *
                sg.pk
          then none else some sg.idx) = none := by
    apply List.findSome?_eq_none_iff.mpr
    intro sg hsg
    rw [honestSigners] at hsg
    obtain ⟨p, hp, hsgp⟩ := List.mem_map.mp hsg
    have hpt : p < t := List.mem_range.mp hp
    subst hsgp
    simp only [hlook p hpt]
    split
    · rfl
    · next hfalse => exact absurd rfl hfalse
  rw [hfs]
  have hfm : (honestSigners q nonces kv t).filterMap
      (fun sg => (honestPartials q env h gk kv nonces t).lookup sg.idx) =
      (List.range t).map (fun p => signerShare q env h gk (kv (p + 1)) (p + 1)
        (nonces p 0).1 (nonces p 0).2 (honestSigners q nonces kv t)) := by
    rw [honestSigners, List.filterMap_map]
    apply filterMap_eq_map_of_some
    intro p hp
    exact hlook p (List.mem_range.mp hp)
  rw [hfm]
  have hzsum : ((List.range t).map (fun p => signerShare q env h gk (kv (p + 1)) (p + 1)
      (nonces p 0).1 (nonces p 0).2 (honestSigners q nonces kv t))).sum =
      groupCommitment q env h (honestSigners q nonces kv t) +
        env.challenge (groupCommitment q env h (honestSigners q nonces kv t)) gk h * gk := by
    have hexp : ((List.range t).map (fun p => signerShare q env h gk (kv (p + 1)) (p + 1)
        (nonces p 0).1 (nonces p 0).2 (honestSigners q nonces kv t))) =
        ((List.range t).map (fun p =>
          ((nonces p 0).1 +
            bindingFactor q env h (honestSigners q nonces kv t) (p + 1) * (nonces p 0).2) +
          env.challenge (groupCommitment q env h (honestSigners q nonces kv t)) gk h *
            (lagrangeCoeff q ((honestSigners q nonces kv t).map SignerEntry.idx) (p + 1) *
              kv (p + 1)))) := by
      apply List.map_congr_left
      intro p _
      simp only [signerShare]
      ring
    rw [hexp, sum_map_add]
    congr 1
    · rw [groupCommitment, honestSigners, List.map_map]
      rfl
    · rw [List.sum_map_mul_left]
      congr 1
      rw [hidx, ← hsum, List.map_map]
      rfl
  rw [hzsum, if_pos rfl]

/-! ## Claim C1: sign then verify succeeds -/

/-- C1: for keys produced by generate_keys with 1 <= t <= n (polynomial degree
t - 1, participant count below the field order), running sign_message with the
same t and n on any message, with the signer subset being the first t stored
shares, and then validate_signature on the same message, the same key
material, and the signature file sign_message wrote, returns Ok. -/
theorem sign_then_validate_ok (q : ℕ) [Fact (Nat.Prime q)] (Hp : ℕ → F q → F q → F q)
    (env : HashEnv q) (msg : List ℕ) (t n : ℕ) (coeffs : ℕ → List (F q))
    (pokNonce : ℕ → F q) (nonces : ℕ → ℕ → F q × F q) (keys : FrostKeysM q)
    (h1 : 1 ≤ t) (h2 : t ≤ n) (hq : n < q)
    (hc : ∀ j, j < n → (coeffs j).length = t)
    (hkeys : generate_keys q Hp t n coeffs pokNonce = Outcome.ok keys) :
    signThenValidate q env msg t n keys nonces = Outcome.ok () := by
  rw [generate_keys_ok q Hp t n coeffs pokNonce h1 h2 hc] at hkeys
  have hkeys2 : keys = ⟨some (groupSecret q coeffs n),
      (List.range n).map (fun i => (some (totalShare q coeffs n (i + 1)), i + 1))⟩ :=
    (Outcome.ok.inj hkeys).symm
  subst hkeys2
  have hdec : decodeShares q ((List.range n).map
      (fun i => (some (totalShare q coeffs n (i + 1)), i + 1))) =
      some ((List.range n).map (fun i => (i + 1, totalShare q coeffs n (i + 1)))) := by
    rw [decodeShares]
    exact mapM_map_eq_map _ _ _ _ (fun a _ => rfl)
  have hlen : ((List.range n).map
      (fun i => (i + 1, totalShare q coeffs n (i + 1)))).length = n := by
    simp
  have hLnd : ((List.range t).map (fun p => p + 1)).Nodup :=
    (List.nodup_range t).map (fun {a b} hab => by omega)
  have hLlt : ∀ j ∈ (List.range t).map (fun p => p + 1), j < q := by
    intro j hj
    obtain ⟨p, hp, hpj⟩ := List.mem_map.mp hj
    have hptt := List.mem_range.mp hp
    omega
  have hSeval : ∀ m : ℕ, totalShare q coeffs n m =
      (∑ j ∈ Finset.range n, listToPoly q (coeffs j)).eval ((m : ℕ) : F q) := by
    intro m
    rw [totalShare, list_map_range_sum, Polynomial.eval_finset_sum]
    apply Finset.sum_congr rfl
    intro j _
    rw [listToPoly_eval]
  have hGeval : groupSecret q coeffs n =
      (∑ j ∈ Finset.range n, listToPoly q (coeffs j)).eval 0 := by
    rw [groupSecret, list_map_range_sum, Polynomial.eval_finset_sum]
    apply Finset.sum_congr rfl
    intro j hj
    have hnemp : coeffs j ≠ [] := by
      intro hnil
      have hcl := hc j (Finset.mem_range.mp hj)
      rw [hnil] at hcl
      simp at hcl
      omega
    rw [listToPoly_eval, evalPoly_zero q _ hnemp]
  have hdeg : (∑ j ∈ Finset.range n, listToPoly q (coeffs j)).degree <
      ((((List.range t).map (fun p => p + 1)).length : ℕ) : WithBot ℕ) := by
    have hd := sum_listToPoly_degree_lt q coeffs n t hc
    simpa using hd
  have hsum : (((List.range t).map (fun p => p + 1)).map
      (fun m => lagrangeCoeff q ((List.range t).map (fun p => p + 1)) m *
        totalShare q coeffs n m)).sum = groupSecret q coeffs n := by
    have hlag := sum_lagrange_eval_zero q ((List.range t).map (fun p => p + 1)) hLnd hLlt
      (∑ j ∈ Finset.range n, listToPoly q (coeffs j)) hdeg
    rw [hGeval, ← hlag]
    apply congrArg List.sum
    apply List.map_congr_left
    intro m _
    rw [hSeval m]
  have hsign : sign_message q env msg t n
      ⟨some (groupSecret q coeffs n),
        (List.range n).map (fun i => (some (totalShare q coeffs n (i + 1)), i + 1))⟩ nonces =
      Outcome.ok
        (groupCommitment q env (env.msgHash signingContext msg)
          (honestSigners q nonces (fun m => totalShare q coeffs n m) t),
         groupCommitment q env (env.msgHash signingContext msg)
           (honestSigners q nonces (fun m => totalShare q coeffs n m) t) +
           env.challenge
             (groupCommitment q env (env.msgHash signingContext msg)
               (honestSigners q nonces (fun m => totalShare q coeffs n m) t))
             (groupSecret q coeffs n) (env.msgHash signingContext msg) *
             groupSecret q coeffs n) := by
    rw [sign_message_reduce q env msg t n _ nonces (groupSecret q coeffs n) _ rfl hdec
      (by rw [hlen]; exact h2)]
    rw [sessionSigners_closed q nonces (fun m => totalShare q coeffs n m) n t h2]
    have hfin : finalizeSigners q t
        (honestSigners q nonces (fun m => totalShare q coeffs n m) t) = Outcome.ok () := by
      rw [finalizeSigners, if_neg]
      simp [honestSigners]
    simp only [hfin]
    rw [sessionPartials_closed q env (env.msgHash signingContext msg)
      (groupSecret q coeffs n) nonces (fun m => totalShare q coeffs n m) n t h2]
    exact aggregateSigs_honest q env (env.msgHash signingContext msg)
      (groupSecret q coeffs n) (fun m => totalShare q coeffs n m) nonces t hsum
  rw [signThenValidate, hsign]
  simp only [validate_signature]
  split
  · rfl
  · next hfalse => exact absurd trivial hfalse

/-- Witness for C1 with q = 5, t = 2, n = 3, all polynomials X + 1 and zero
nonces: the generated key file signs the message [0] and the signature then
validates. -/
theorem sign_then_validate_ok_witness :
    generate_keys 5 (fun _ _ _ => 0) 2 3 (fun _ => [1, 1]) (fun _ => 0) =
        Outcome.ok ⟨some 3, [(some 1, 1), (some 4, 2), (some 2, 3)]⟩ ∧
      signThenValidate 5 envC [0] 2 3 ⟨some 3, [(some 1, 1), (some 4, 2), (some 2, 3)]⟩
        (fun _ _ => (0, 0)) = Outcome.ok () := by
  have hk : generate_keys 5 (fun _ _ _ => 0) 2 3 (fun _ => [1, 1]) (fun _ => 0) =
      Outcome.ok ⟨some 3, [(some 1, 1), (some 4, 2), (some 2, 3)]⟩ := by decide
  haveI : Fact (Nat.Prime 5) := ⟨by norm_num⟩
  exact ⟨hk, sign_then_validate_ok 5 (fun _ _ _ => 0) envC [0] 2 3 (fun _ => [1, 1])
    (fun _ => 0) (fun _ _ => (0, 0)) ⟨some 3, [(some 1, 1), (some 4, 2), (some 2, 3)]⟩
    (by decide) (by decide) (by decide) (fun _ _ => rfl) hk⟩

/-! ## Claim C5: verification fails for any other message -/

/-- A signature the aggregator returns satisfies the Schnorr equation for the
challenge derived from the session message. -/
theorem aggregateSigs_ok_eq (q : ℕ) (env : HashEnv q) (h gk : F q)
    (signers : List (SignerEntry q)) (zs : List (ℕ × F q)) (R z : F q)
    (hag : aggregateSigs q env h gk signers zs = Outcome.ok (R, z)) :
    z = R + env.challenge R gk h * gk := by
  simp only [aggregateSigs] at hag
  split at hag
  · exact absurd hag (by simp)
  · split at hag
    next hz =>
        have hp := Outcome.ok.inj hag
        have hR : groupCommitment q env h signers = R := congrArg Prod.fst hp
        have hz2 : (List.filterMap (fun sg => List.lookup sg.idx zs) signers).sum = z :=
          congrArg Prod.snd hp
        rw [← hz2, ← hR]
        exact hz
    next => exact absurd hag (by simp)

/-- A signature sign_message wrote satisfies the Schnorr equation for the
challenge derived from the signed message. -/
theorem sign_message_ok_eq (q : ℕ) (env : HashEnv q) (msg : List ℕ) (t n : ℕ)
    (keys : FrostKeysM q) (nonces : ℕ → ℕ → F q × F q) (gk : F q) (sig : F q × F q)
    (hgk : keys.group_key = some gk)
    (hsig : sign_message q env msg t n keys nonces = Outcome.ok sig) :
    sig.2 = sig.1 + env.challenge sig.1 gk (env.msgHash signingContext msg) * gk := by
  cases hdec : decodeShares q keys.private_shares with
  | none =>
      have hrw : sign_message q env msg t n keys nonces =
          Outcome.err FrostError.malformedKeyMaterial := by
        simp only [sign_message, hgk, hdec]
      rw [hrw] at hsig
      exact absurd hsig (by simp)
  | some sks =>
      by_cases ht : t ≤ sks.length
      · rw [sign_message_reduce q env msg t n keys nonces gk sks hgk hdec ht] at hsig
        split at hsig
        · exact absurd hsig (by simp)
        · exact absurd hsig (by simp)
        · exact aggregateSigs_ok_eq q env _ gk _ _ sig.1 sig.2 hsig
      · rw [sign_message_panic q env msg t n keys nonces gk sks hgk hdec ht] at hsig
        exact absurd hsig (by simp)

/-- C5: a signature file produced by sign_message on one message fails
validate_signature on any message whose derived challenge differs (any other
message, under the idealized collision-free hash) when the group key is not
the identity: verification is rejected with SignatureVerificationFailed. -/
theorem validate_fails_on_other_message (q : ℕ) [Fact (Nat.Prime q)] (env : HashEnv q)
    (msg msg2 : List ℕ) (t n : ℕ) (keys : FrostKeysM q) (nonces : ℕ → ℕ → F q × F q)
    (gk : F q) (sig : F q × F q)
    (hgk : keys.group_key = some gk) (hgk0 : gk ≠ 0)
    (hsig : sign_message q env msg t n keys nonces = Outcome.ok sig)
    (hch : env.challenge sig.1 gk (env.msgHash signingContext msg2) ≠
      env.challenge sig.1 gk (env.msgHash signingContext msg)) :
    validate_signature q env msg2 keys sig =
      Outcome.err FrostError.signatureVerificationFailed := by
  have hz := sign_message_ok_eq q env msg t n keys nonces gk sig hgk hsig
  have hne : ¬(sig.2 = sig.1 +
      env.challenge sig.1 gk (env.msgHash signingContext msg2) * gk) := by
    intro heq
    rw [hz] at heq
    have h3 : env.challenge sig.1 gk (env.msgHash signingContext msg) * gk =
        env.challenge sig.1 gk (env.msgHash signingContext msg2) * gk :=
      add_left_cancel heq
    exact hch (mul_right_cancel₀ hgk0 h3).symm
  simp only [validate_signature, hgk]
  rw [if_neg hne]

/-- Witness for C5: the signature of the message [0] is rejected for the
message [1]. -/
theorem validate_fails_on_other_message_witness :
    (FrostKeysM.mk (some (3 : F 5)) [(some 1, 1), (some 4, 2), (some 2, 3)]).group_key =
        some 3 ∧
      (3 : F 5) ≠ 0 ∧
      sign_message 5 envC [0] 2 3 ⟨some 3, [(some 1, 1), (some 4, 2), (some 2, 3)]⟩
        (fun _ _ => (0, 0)) = Outcome.ok (0, 0) ∧
      envC.challenge 0 3 (envC.msgHash signingContext [1]) ≠
        envC.challenge 0 3 (envC.msgHash signingContext [0]) ∧
      validate_signature 5 envC [1] ⟨some 3, [(some 1, 1), (some 4, 2), (some 2, 3)]⟩
        (0, 0) = Outcome.err FrostError.signatureVerificationFailed := by
  have hg0 : (3 : F 5) ≠ 0 := by decide
  have hs : sign_message 5 envC [0] 2 3
      ⟨some 3, [(some 1, 1), (some 4, 2), (some 2, 3)]⟩ (fun _ _ => (0, 0)) =
      Outcome.ok ((0 : F 5), (0 : F 5)) := by decide
  have hch : envC.challenge 0 3 (envC.msgHash signingContext [1]) ≠
      envC.challenge 0 3 (envC.msgHash signingContext [0]) := by decide
  haveI : Fact (Nat.Prime 5) := ⟨by norm_num⟩
  exact ⟨rfl, hg0, hs, hch,
    validate_fails_on_other_message 5 envC [0] [1] 2 3
      ⟨some 3, [(some 1, 1), (some 4, 2), (some 2, 3)]⟩ (fun _ _ => (0, 0)) 3 (0, 0)
      rfl hg0 hs hch⟩

/-- Witness for C2 with q = 5, t = 2, n = 3 and all polynomials X + 1. -/
theorem generate_keys_ok_witness :
    ((1 : ℕ) ≤ 2 ∧ (2 : ℕ) ≤ 3 ∧ ∀ j, j < 3 → ([(1 : F 5), 1]).length = 2) ∧
      generate_keys 5 (fun _ _ _ => 0) 2 3 (fun _ => [1, 1]) (fun _ => 0) =
        Outcome.ok ⟨some (groupSecret 5 (fun _ => [1, 1]) 3),
          (List.range 3).map (fun i => (some (totalShare 5 (fun _ => [1, 1]) 3 (i + 1)), i + 1))⟩ :=
  ⟨⟨by decide, by decide, fun _ _ => rfl⟩,
    generate_keys_ok 5 (fun _ _ _ => 0) 2 3 (fun _ => [1, 1]) (fun _ => 0)
      (by decide) (by decide) (fun _ _ => rfl)⟩

end Frost
